import Mathlib

/-!
# Verification of `tools/codegen/selective_build/operator.py`

A shallow embedding of the selective-build operator module: the
`PyTorchModelMetadata` and `SelectiveBuildOperator` records, their
YAML-document (de)serialization, and the merge engine
(`merge_model_lists`, `combine_operators`, `merge_operator_dicts`).

Python dictionaries are modelled as association lists `List (String × α)`
with insertion-order semantics: assigning to an existing key replaces the
value in place (keeping the key's position), assigning a fresh key appends
it at the end.  YAML values are modelled by the inductive `Yaml`.
Fallible Python code (`raise`, failed `assert`, `KeyError`) is modelled
with `Except String`.
-/

/-- A generic YAML/structured-document value: strings, booleans, lists and
string-keyed mappings (mappings as insertion-ordered association lists). -/
inductive Yaml where
  | str : String → Yaml
  | bool : Bool → Yaml
  | list : List Yaml → Yaml
  | dict : List (String × Yaml) → Yaml

/-- Lookup in a Python-style dictionary (first matching key wins; a real
Python dict never has duplicates). Models `d[k]` / `d.get(k)` / `k in d`. -/
def dlookup {α : Type} : List (String × α) → String → Option α
  | [], _ => none
  | (k1, v1) :: tl, k => if k1 = k then some v1 else dlookup tl k

/-- The key list of a Python-style dictionary, in insertion order. -/
def dkeys {α : Type} (d : List (String × α)) : List String :=
  d.map Prod.fst

/-- Python dictionary assignment `d[k] = v`: replace the value at `k` in
place if the key exists, otherwise append the new binding at the end. -/
def pyDictInsert {α : Type} (d : List (String × α)) (k : String) (v : α) :
    List (String × α) :=
  match d with
  | [] => [(k, v)]
  | (k1, v1) :: tl =>
    if k1 = k then (k1, v) :: tl else (k1, v1) :: pyDictInsert tl k v

/-- `class PyTorchModelMetadata` — name plus optional version tag. -/
structure PyTorchModelMetadata where
  name : String
  version : Option String
deriving DecidableEq

/-- `PyTorchModelMetadata.__str__`: `name` alone when `version` is `None`,
otherwise `"{name}@{version}"`. -/
def PyTorchModelMetadata.pyStr (m : PyTorchModelMetadata) : String :=
  match m.version with
  | none => m.name
  | some v => m.name ++ "@" ++ v

/-- `PyTorchModelMetadata.from_yaml`: requires key `name` with a string
value (missing key is a `KeyError`, wrong type an `AssertionError`); key
`version` is optional but must be a string when present. -/
def PyTorchModelMetadata.from_yaml (data : List (String × Yaml)) :
    Except String PyTorchModelMetadata :=
  match dlookup data "name" with
  | none => .error "KeyError: name"
  | some (.str nm) =>
    match dlookup data "version" with
    | none => .ok ⟨nm, none⟩
    | some (.str ver) => .ok ⟨nm, some ver⟩
    | some _ => .error "AssertionError: version is not a str"
  | some _ => .error "AssertionError: name is not a str"

/-- `PyTorchModelMetadata.to_dict`: `{name}` when `version` is `None`,
otherwise `{name, version}`. -/
def PyTorchModelMetadata.to_dict (m : PyTorchModelMetadata) :
    List (String × Yaml) :=
  match m.version with
  | none => [("name", Yaml.str m.name)]
  | some v => [("name", Yaml.str m.name), ("version", Yaml.str v)]

/-- `class SelectiveBuildOperator` — one operator declaration. -/
structure SelectiveBuildOperator where
  name : String
  is_root_operator : Bool
  is_used_for_training : Bool
  include_all_overloads : Bool
  models : Option (List PyTorchModelMetadata)
deriving DecidableEq

/-- `op_info.get(key, True)` followed by `assert isinstance(flag, bool)`:
default `true` on absence, error when the present value is not a boolean. -/
def getBoolOrDefault (d : List (String × Yaml)) (k : String) :
    Except String Bool :=
  match dlookup d k with
  | none => .ok true
  | some (.bool b) => .ok b
  | some _ => .error ("AssertionError: " ++ k ++ " is not a bool")

/-- A single element of the `models` list is fed to
`PyTorchModelMetadata.from_yaml`, which subscripts it: a non-dict element
fails (Python raises a `TypeError` on the subscription). -/
def fromYamlValue (y : Yaml) : Except String PyTorchModelMetadata :=
  match y with
  | .dict md => PyTorchModelMetadata.from_yaml md
  | _ => .error "TypeError: model entry is not a dict"

/-- The `models` block of `from_yaml_dict`: absent key gives `none`; a
present value must be a list (`assert isinstance(models_list, list)`)
whose elements are deserialized via `PyTorchModelMetadata.from_yaml`,
errors propagating. -/
def getModels (op_info : List (String × Yaml)) :
    Except String (Option (List PyTorchModelMetadata)) :=
  match dlookup op_info "models" with
  | none => .ok none
  | some (.list ms) => (ms.mapM fromYamlValue).map some
  | some _ => .error "AssertionError: models is not a list"

/-- `SelectiveBuildOperator.from_yaml_dict`: reads the three boolean flags
with default `true`, and the optional `models` list (each element
deserialized via `PyTorchModelMetadata.from_yaml`, errors propagating).
An absent `models` key yields `none`, not an empty list. -/
def SelectiveBuildOperator.from_yaml_dict (op_name : String)
    (op_info : List (String × Yaml)) : Except String SelectiveBuildOperator := do
  let is_root_operator ← getBoolOrDefault op_info "is_root_operator"
  let is_used_for_training ← getBoolOrDefault op_info "is_used_for_training"
  let include_all_overloads ← getBoolOrDefault op_info "include_all_overloads"
  let models ← getModels op_info
  pure ⟨op_name, is_root_operator, is_used_for_training,
    include_all_overloads, models⟩

/-- `SelectiveBuildOperator.from_legacy_operator_name_without_overload`:
all flags default to `true`, `models` absent. -/
def SelectiveBuildOperator.from_legacy_operator_name_without_overload
    (name : String) : SelectiveBuildOperator :=
  ⟨name, true, true, true, none⟩

/-- `SelectiveBuildOperator.to_dict`: always emits the three flags; emits
`models` only when it is not absent. Does not emit `name`. -/
def SelectiveBuildOperator.to_dict (op : SelectiveBuildOperator) :
    List (String × Yaml) :=
  let ret := [("is_root_operator", Yaml.bool op.is_root_operator),
    ("is_used_for_training", Yaml.bool op.is_used_for_training),
    ("include_all_overloads", Yaml.bool op.include_all_overloads)]
  match op.models with
  | none => ret
  | some ms => ret ++ [("models", Yaml.list (ms.map (fun m => Yaml.dict m.to_dict)))]

/-- One iteration of the `merge_model_lists` loop:
`mdict[str(model)] = model`. -/
def mstep (d : List (String × PyTorchModelMetadata))
    (m : PyTorchModelMetadata) : List (String × PyTorchModelMetadata) :=
  pyDictInsert d m.pyStr m

/-- `merge_model_lists`: fold the concatenation (absent treated as empty)
into a dict keyed by canonical string, then return its values, or `none`
when the dict is empty. -/
def merge_model_lists (lhs rhs : Option (List PyTorchModelMetadata)) :
    Option (List PyTorchModelMetadata) :=
  let mdict := ((lhs.getD []) ++ (rhs.getD [])).foldl mstep []
  if 0 < mdict.length then some (mdict.map Prod.snd) else none

/-- `combine_operators`: raises unless the two names agree as strings,
then ORs the three flags and merges the model lists. -/
def combine_operators (lhs rhs : SelectiveBuildOperator) :
    Except String SelectiveBuildOperator :=
  if lhs.name ≠ rhs.name then
    .error ("Expected both arguments to have the same name, but got '" ++
      lhs.name ++ "' and '" ++ rhs.name ++ "' instead")
  else
    .ok ⟨lhs.name,
      lhs.is_root_operator || rhs.is_root_operator,
      lhs.is_used_for_training || rhs.is_used_for_training,
      lhs.include_all_overloads || rhs.include_all_overloads,
      merge_model_lists lhs.models rhs.models⟩

/-- One iteration of the `merge_operator_dicts` loop: combine with the
already-accumulated record for this name (if any) and assign. -/
def regStep (ops : List (String × SelectiveBuildOperator))
    (p : String × SelectiveBuildOperator) :
    Except String (List (String × SelectiveBuildOperator)) :=
  match dlookup ops p.1 with
  | some existing =>
    (combine_operators existing p.2).map (fun newOp => pyDictInsert ops p.1 newOp)
  | none => .ok (pyDictInsert ops p.1 p.2)

/-- `merge_operator_dicts`: fold `list(lhs.items()) + list(rhs.items())`
into a fresh dictionary, combining on key collision. -/
def merge_operator_dicts (lhs rhs : List (String × SelectiveBuildOperator)) :
    Except String (List (String × SelectiveBuildOperator)) :=
  (lhs ++ rhs).foldlM regStep []

/-- `strip_operator_overload_name`: `op_name.split(".")[0]`, i.e. the
segment before the first dot (the whole string when no dot occurs). -/
def strip_operator_overload_name (op_name : String) : String :=
  String.mk (op_name.data.takeWhile (fun c => c ≠ '.'))

/-! ## Specification-side definitions

These re-state, in direct recursive form, what the dictionary-based
merge computes; the refinement theorems below connect them to the code. -/

/-- The last element of `l` whose canonical string is `k` (the value a
Python dict holds after all assignments `mdict[str(m)] = m`). -/
def lastValueFor : List PyTorchModelMetadata → String → Option PyTorchModelMetadata
  | [], _ => none
  | m :: tl, k =>
    match lastValueFor tl k with
    | some v => some v
    | none => if m.pyStr = k then some m else none

/-- The keys of `l` not already in `acc`, in order of first occurrence
(the key order a Python dict ends up with). -/
def newKeys : List String → List String → List String
  | _, [] => []
  | acc, k :: tl => if k ∈ acc then newKeys acc tl else k :: newKeys (acc ++ [k]) tl

/-- Specification of the merged model list: canonical strings in first
occurrence order, each mapped to the last entry bearing it. -/
def specMergeList (l : List PyTorchModelMetadata) : List PyTorchModelMetadata :=
  (newKeys [] (l.map PyTorchModelMetadata.pyStr)).filterMap (lastValueFor l)

/-- The record `combine_operators` returns on the success path: shared
name, fieldwise OR, merged model lists. -/
def combineOk (lhs rhs : SelectiveBuildOperator) : SelectiveBuildOperator :=
  ⟨lhs.name,
    lhs.is_root_operator || rhs.is_root_operator,
    lhs.is_used_for_training || rhs.is_used_for_training,
    lhs.include_all_overloads || rhs.include_all_overloads,
    merge_model_lists lhs.models rhs.models⟩

/-- Combination of two optional records (per-key view of a registry merge). -/
def optCombine : Option SelectiveBuildOperator → Option SelectiveBuildOperator →
    Option SelectiveBuildOperator
  | some a, some b => some (combineOk a b)
  | some a, none => some a
  | none, some b => some b
  | none, none => none

/-- Key–name consistency of a registry: every key maps to a record whose
`name` field is that key. -/
def consistentReg (R : List (String × SelectiveBuildOperator)) : Prop :=
  ∀ p ∈ R, (Prod.snd p).name = Prod.fst p

instance decConsistentReg (R : List (String × SelectiveBuildOperator)) :
    Decidable (consistentReg R) :=
  inferInstanceAs (Decidable (∀ p ∈ R, (Prod.snd p).name = Prod.fst p))

/-! ## Dictionary lemmas -/

theorem dkeys_pyDictInsert {α : Type} (d : List (String × α)) (k : String) (v : α) :
    dkeys (pyDictInsert d k v) = if k ∈ dkeys d then dkeys d else dkeys d ++ [k] := by
  induction d with
  | nil => simp [pyDictInsert, dkeys]
  | cons p tl ih =>
    obtain ⟨k1, v1⟩ := p
    by_cases h : k1 = k
    · subst h
      simp [pyDictInsert, dkeys]
    · simp only [pyDictInsert, if_neg h, dkeys, List.map_cons] at ih ⊢
      rw [ih]
      by_cases hm : k ∈ List.map Prod.fst tl
      · simp [hm, Ne.symm h]
      · simp [hm, Ne.symm h]

theorem dlookup_pyDictInsert {α : Type} (d : List (String × α)) (k k1 : String) (v : α) :
    dlookup (pyDictInsert d k v) k1 = if k = k1 then some v else dlookup d k1 := by
  induction d with
  | nil => simp [pyDictInsert, dlookup]
  | cons p tl ih =>
    obtain ⟨k0, v0⟩ := p
    by_cases h : k0 = k
    · subst h
      by_cases h1 : k0 = k1
      · subst h1; simp [pyDictInsert, dlookup]
      · simp [pyDictInsert, dlookup, h1]
    · by_cases h1 : k0 = k1
      · subst h1
        have hk : ¬ k = k0 := fun hc => h hc.symm
        simp [pyDictInsert, dlookup, h, hk]
      · simp [pyDictInsert, dlookup, h, h1, ih]

theorem dlookup_eq_none {α : Type} (d : List (String × α)) (k : String) :
    dlookup d k = none ↔ k ∉ dkeys d := by
  induction d with
  | nil => simp [dlookup, dkeys]
  | cons p tl ih =>
    obtain ⟨k0, v0⟩ := p
    by_cases h : k0 = k
    · subst h; simp [dlookup, dkeys]
    · simp [dlookup, dkeys, h, ih, Ne.symm h]

theorem dlookup_mem {α : Type} {d : List (String × α)} {k : String} {v : α}
    (h : dlookup d k = some v) : (k, v) ∈ d := by
  induction d with
  | nil => simp [dlookup] at h
  | cons p tl ih =>
    obtain ⟨k0, v0⟩ := p
    by_cases hk : k0 = k
    · subst hk
      have hv : v0 = v := by simpa [dlookup] using h
      subst hv
      exact List.mem_cons_self _ _
    · simp only [dlookup, if_neg hk] at h
      exact List.mem_cons_of_mem _ (ih h)

theorem nodup_dkeys_pyDictInsert {α : Type} {d : List (String × α)}
    (hn : (dkeys d).Nodup) (k : String) (v : α) :
    (dkeys (pyDictInsert d k v)).Nodup := by
  rw [dkeys_pyDictInsert]
  by_cases hm : k ∈ dkeys d
  · simpa [hm]
  · simp only [if_neg hm]
    exact List.Nodup.append hn (List.nodup_singleton k)
      (by simpa [List.disjoint_singleton] using hm)

theorem mem_pyDictInsert {α : Type} {d : List (String × α)} {k : String} {v : α}
    {p : String × α} (h : p ∈ pyDictInsert d k v) : p ∈ d ∨ p = (k, v) := by
  induction d with
  | nil => simpa [pyDictInsert] using h
  | cons q tl ih =>
    obtain ⟨k0, v0⟩ := q
    by_cases hk : k0 = k
    · subst hk
      have h2 : p = (k0, v) ∨ p ∈ tl := by simpa [pyDictInsert] using h
      rcases h2 with h2 | h2
      · right; exact h2
      · left; exact List.mem_cons_of_mem _ h2
    · simp only [pyDictInsert, if_neg hk, List.mem_cons] at h
      rcases h with h | h
      · left; simp [h]
      · rcases ih h with h1 | h1
        · left; exact List.mem_cons_of_mem _ h1
        · right; exact h1

theorem pyDictInsert_fresh {α : Type} {d : List (String × α)} {k : String}
    (hm : k ∉ dkeys d) (v : α) : pyDictInsert d k v = d ++ [(k, v)] := by
  induction d with
  | nil => simp [pyDictInsert]
  | cons q tl ih =>
    obtain ⟨k0, v0⟩ := q
    simp only [dkeys, List.map_cons, List.mem_cons] at hm
    push_neg at hm
    have hne : ¬ k0 = k := fun hc => hm.1 hc.symm
    simp [pyDictInsert, hne, ih hm.2]

theorem dict_ext {α : Type} : ∀ {d1 d2 : List (String × α)},
    (dkeys d1).Nodup → dkeys d1 = dkeys d2 →
    (∀ k, dlookup d1 k = dlookup d2 k) → d1 = d2 := by
  intro d1
  induction d1 with
  | nil =>
    intro d2 _ hk _
    cases d2 with
    | nil => rfl
    | cons q tl => simp [dkeys] at hk
  | cons p tl ih =>
    intro d2 hn hk hl
    obtain ⟨k0, v0⟩ := p
    cases d2 with
    | nil => simp [dkeys] at hk
    | cons q tl2 =>
      obtain ⟨k2, v2⟩ := q
      simp only [dkeys, List.map_cons, List.cons.injEq] at hk
      obtain ⟨hk0, hktl⟩ := hk
      subst hk0
      have hv : some v0 = some v2 := by
        have := hl k0
        simpa [dlookup] using this
      have hv' : v0 = v2 := by injection hv
      subst hv'
      have hn' : (dkeys tl).Nodup := (List.nodup_cons.mp hn).2
      have hk0tl : k0 ∉ dkeys tl := (List.nodup_cons.mp hn).1
      refine congrArg _ (ih hn' hktl ?_)
      intro k
      by_cases h : k = k0
      · subst h
        have h1 : dlookup tl k = none := (dlookup_eq_none tl k).mpr hk0tl
        have h2 : dlookup tl2 k = none := by
          rw [dlookup_eq_none]
          simp only [dkeys] at hk0tl ⊢
          rw [← hktl]
          exact hk0tl
        rw [h1, h2]
      · have := hl k
        simpa [dlookup, Ne.symm h] using this

/-! ## The model dictionary built by `merge_model_lists` -/

/-- Canonical form of the model dictionary: keys are distinct and each
binding's key is the canonical string of its value. -/
def mcanon (d : List (String × PyTorchModelMetadata)) : Prop :=
  (dkeys d).Nodup ∧ ∀ p ∈ d, p.1 = p.2.pyStr

theorem mcanon_nil : mcanon [] :=
  ⟨List.nodup_nil, by simp⟩

theorem mcanon_mstep {d : List (String × PyTorchModelMetadata)}
    (h : mcanon d) (m : PyTorchModelMetadata) : mcanon (mstep d m) := by
  refine ⟨nodup_dkeys_pyDictInsert h.1 _ _, ?_⟩
  intro p hp
  rcases mem_pyDictInsert hp with h1 | h1
  · exact h.2 p h1
  · rw [h1]

theorem mcanon_foldl : ∀ (l : List PyTorchModelMetadata)
    (d : List (String × PyTorchModelMetadata)), mcanon d → mcanon (l.foldl mstep d)
  | [], _, h => h
  | m :: tl, d, h => mcanon_foldl tl (mstep d m) (mcanon_mstep h m)

theorem dkeys_foldl_mstep : ∀ (l : List PyTorchModelMetadata)
    (d : List (String × PyTorchModelMetadata)),
    dkeys (l.foldl mstep d) = dkeys d ++ newKeys (dkeys d) (l.map PyTorchModelMetadata.pyStr) := by
  intro l
  induction l with
  | nil => intro d; simp [newKeys]
  | cons m tl ih =>
    intro d
    rw [List.foldl_cons, ih (mstep d m)]
    by_cases hm : m.pyStr ∈ dkeys d
    · have hk : dkeys (mstep d m) = dkeys d := by
        rw [mstep, dkeys_pyDictInsert, if_pos hm]
      rw [hk]
      simp only [List.map_cons, newKeys, if_pos hm]
    · have hk : dkeys (mstep d m) = dkeys d ++ [m.pyStr] := by
        rw [mstep, dkeys_pyDictInsert, if_neg hm]
      rw [hk]
      simp only [List.map_cons, newKeys, if_neg hm]
      rw [List.append_assoc, List.singleton_append]

theorem dlookup_foldl_mstep : ∀ (l : List PyTorchModelMetadata)
    (d : List (String × PyTorchModelMetadata)) (k : String),
    dlookup (l.foldl mstep d) k =
      match lastValueFor l k with
      | some v => some v
      | none => dlookup d k := by
  intro l
  induction l with
  | nil => intro d k; simp [lastValueFor]
  | cons m tl ih =>
    intro d k
    rw [List.foldl_cons, ih (mstep d m)]
    show (match lastValueFor tl k with
      | some v => some v
      | none => dlookup (pyDictInsert d m.pyStr m) k) = _
    rw [dlookup_pyDictInsert]
    cases hlv : lastValueFor tl k with
    | some v => simp [lastValueFor, hlv]
    | none =>
      by_cases hk : m.pyStr = k
      · simp [lastValueFor, hlv, hk]
      · simp [lastValueFor, hlv, hk]

theorem newKeys_disjoint_nodup : ∀ (l acc : List String),
    (∀ x ∈ newKeys acc l, x ∉ acc) ∧ (newKeys acc l).Nodup := by
  intro l
  induction l with
  | nil => intro acc; simp [newKeys]
  | cons k tl ih =>
    intro acc
    by_cases hk : k ∈ acc
    · simpa [newKeys, hk] using ih acc
    · have h2 := ih (acc ++ [k])
      simp only [newKeys, if_neg hk]
      refine ⟨?_, List.nodup_cons.mpr ⟨?_, h2.2⟩⟩
      · intro x hx
        rcases List.mem_cons.mp hx with h | h
        · subst h; exact hk
        · intro hxa
          exact h2.1 x h (List.mem_append_left _ hxa)
      · intro hkN
        exact h2.1 k hkN (List.mem_append_right _ (List.mem_singleton_self k))

theorem newKeys_mem_congr : ∀ (l a b : List String),
    (∀ x, x ∈ a ↔ x ∈ b) → newKeys a l = newKeys b l := by
  intro l
  induction l with
  | nil => intro a b _; simp [newKeys]
  | cons k tl ih =>
    intro a b hab
    by_cases hk : k ∈ a
    · have hkb : k ∈ b := (hab k).mp hk
      simp only [newKeys, if_pos hk, if_pos hkb]
      exact ih a b hab
    · have hkb : k ∉ b := fun hc => hk ((hab k).mpr hc)
      simp only [newKeys, if_neg hk, if_neg hkb]
      refine congrArg _ (ih _ _ ?_)
      intro x
      simp [List.mem_append, hab x]

theorem newKeys_newKeys : ∀ (l a b : List String),
    (∀ x, x ∈ b → x ∈ a) → newKeys a (newKeys b l) = newKeys a l := by
  intro l
  induction l with
  | nil => intro a b _; simp [newKeys]
  | cons k tl ih =>
    intro a b hba
    by_cases hkb : k ∈ b
    · have hka : k ∈ a := hba k hkb
      simp only [newKeys, if_pos hkb, if_pos hka]
      exact ih a b hba
    · by_cases hka : k ∈ a
      · simp only [newKeys, if_neg hkb, if_pos hka]
        exact ih a (b ++ [k]) (by
          intro x hx
          rcases List.mem_append.mp hx with h | h
          · exact hba x h
          · rw [List.mem_singleton.mp h]; exact hka)
      · simp only [newKeys, if_neg hkb, if_neg hka]
        refine congrArg _ (ih (a ++ [k]) (b ++ [k]) ?_)
        intro x hx
        rcases List.mem_append.mp hx with h | h
        · exact List.mem_append_left _ (hba x h)
        · exact List.mem_append_right _ h

/-- The dictionary `merge_model_lists` builds from the concatenated input. -/
def mDictOf (l : List PyTorchModelMetadata) :
    List (String × PyTorchModelMetadata) :=
  l.foldl mstep []

theorem mcanon_mDictOf (l : List PyTorchModelMetadata) : mcanon (mDictOf l) :=
  mcanon_foldl l [] mcanon_nil

theorem dkeys_mDictOf (l : List PyTorchModelMetadata) :
    dkeys (mDictOf l) = newKeys [] (l.map PyTorchModelMetadata.pyStr) := by
  have h := dkeys_foldl_mstep l []
  simpa [dkeys] using h

theorem dlookup_mDictOf (l : List PyTorchModelMetadata) (k : String) :
    dlookup (mDictOf l) k = lastValueFor l k := by
  have h := dlookup_foldl_mstep l [] k
  rw [mDictOf, h]
  cases lastValueFor l k <;> simp [dlookup]

theorem mDictOf_eq_nil_iff (l : List PyTorchModelMetadata) :
    mDictOf l = [] ↔ l = [] := by
  constructor
  · intro h
    cases l with
    | nil => rfl
    | cons m tl =>
      exfalso
      have hk := dkeys_mDictOf (m :: tl)
      rw [h] at hk
      simp [dkeys, newKeys] at hk
  · intro h; subst h; rfl

theorem map_snd_eq_filterMap {α : Type} : ∀ {d : List (String × α)},
    (dkeys d).Nodup → d.map Prod.snd = (dkeys d).filterMap (fun k => dlookup d k) := by
  intro d
  induction d with
  | nil => intro _; rfl
  | cons p tl ih =>
    intro hn
    obtain ⟨k0, v0⟩ := p
    rw [dkeys, List.map_cons] at hn
    obtain ⟨hk0, htl⟩ := List.nodup_cons.mp hn
    have h0 : dlookup ((k0, v0) :: tl) k0 = some v0 := by simp [dlookup]
    calc ((k0, v0) :: tl).map Prod.snd = v0 :: tl.map Prod.snd := rfl
      _ = v0 :: (dkeys tl).filterMap (fun k => dlookup tl k) := by rw [ih htl]
      _ = v0 :: (dkeys tl).filterMap (fun k => dlookup ((k0, v0) :: tl) k) := by
          refine congrArg _ (List.filterMap_congr ?_).symm
          intro k hk
          have hne : ¬ k0 = k := fun hc => hk0 (hc ▸ hk)
          simp [dlookup, hne]
      _ = (dkeys ((k0, v0) :: tl)).filterMap (fun k => dlookup ((k0, v0) :: tl) k) := by
          rw [show dkeys ((k0, v0) :: tl) = k0 :: dkeys tl from rfl,
            List.filterMap_cons_some h0]

theorem map_snd_mDictOf (l : List PyTorchModelMetadata) :
    (mDictOf l).map Prod.snd = specMergeList l := by
  rw [map_snd_eq_filterMap (mcanon_mDictOf l).1, dkeys_mDictOf, specMergeList]
  refine List.filterMap_congr ?_
  intro k _
  exact dlookup_mDictOf l k

theorem merge_model_lists_eq (lhs rhs : Option (List PyTorchModelMetadata)) :
    merge_model_lists lhs rhs =
      if (lhs.getD [] ++ rhs.getD []) = [] then none
      else some ((mDictOf (lhs.getD [] ++ rhs.getD [])).map Prod.snd) := by
  show (if 0 < (mDictOf (lhs.getD [] ++ rhs.getD [])).length then
      some ((mDictOf (lhs.getD [] ++ rhs.getD [])).map Prod.snd) else none) = _
  by_cases h : lhs.getD [] ++ rhs.getD [] = []
  · rw [if_pos h]
    have hd : mDictOf (lhs.getD [] ++ rhs.getD []) = [] :=
      (mDictOf_eq_nil_iff _).mpr h
    simp [hd]
  · rw [if_neg h]
    have hd : mDictOf (lhs.getD [] ++ rhs.getD []) ≠ [] :=
      fun hc => h ((mDictOf_eq_nil_iff _).mp hc)
    rw [if_pos (List.length_pos.mpr hd)]

theorem merge_model_lists_getD (lhs rhs : Option (List PyTorchModelMetadata)) :
    (merge_model_lists lhs rhs).getD [] =
      (mDictOf (lhs.getD [] ++ rhs.getD [])).map Prod.snd := by
  rw [merge_model_lists_eq]
  by_cases h : lhs.getD [] ++ rhs.getD [] = []
  · rw [if_pos h, h]
    rfl
  · rw [if_neg h]
    rfl

theorem foldl_mstep_cons_fresh : ∀ (l : List PyTorchModelMetadata)
    (d : List (String × PyTorchModelMetadata)) (k : String) (v : PyTorchModelMetadata),
    (∀ x ∈ l, x.pyStr ≠ k) →
    l.foldl mstep ((k, v) :: d) = (k, v) :: l.foldl mstep d := by
  intro l
  induction l with
  | nil => intro d k v _; rfl
  | cons m tl ih =>
    intro d k v hfresh
    have hm : m.pyStr ≠ k := hfresh m (List.mem_cons_self _ _)
    have hstep : mstep ((k, v) :: d) m = (k, v) :: mstep d m := by
      rw [mstep, mstep, pyDictInsert]
      rw [if_neg (fun hc => hm hc.symm)]
    rw [List.foldl_cons, hstep, List.foldl_cons]
    exact ih (mstep d m) k v (fun x hx => hfresh x (List.mem_cons_of_mem _ hx))

theorem mDictOf_rebuild : ∀ {d : List (String × PyTorchModelMetadata)},
    mcanon d → mDictOf (d.map Prod.snd) = d := by
  intro d
  induction d with
  | nil => intro _; rfl
  | cons p tl ih =>
    intro hc
    obtain ⟨k0, v0⟩ := p
    have hk0 : k0 = v0.pyStr := hc.2 (k0, v0) (List.mem_cons_self _ _)
    have hnod := hc.1
    rw [dkeys, List.map_cons] at hnod
    obtain ⟨hk0tl, htlnod⟩ := List.nodup_cons.mp hnod
    have hctl : mcanon tl :=
      ⟨htlnod, fun q hq => hc.2 q (List.mem_cons_of_mem _ hq)⟩
    have hfresh : ∀ x ∈ tl.map Prod.snd, x.pyStr ≠ k0 := by
      intro x hx
      rcases List.mem_map.mp hx with ⟨q, hq, hxq⟩
      have := hctl.2 q hq
      intro hcc
      apply hk0tl
      rw [show ((k0, v0).1 : String) = k0 from rfl]
      have : q.1 = k0 := by rw [this, hxq, hcc]
      exact this ▸ List.mem_map_of_mem Prod.fst hq
    have hstep0 : mstep [] v0 = [(k0, v0)] := by
      rw [mstep, pyDictInsert, hk0]
    calc mDictOf (((k0, v0) :: tl).map Prod.snd)
        = (tl.map Prod.snd).foldl mstep ((k0, v0) :: []) := by
          rw [List.map_cons, mDictOf, List.foldl_cons, hstep0]
      _ = (k0, v0) :: (tl.map Prod.snd).foldl mstep [] :=
          foldl_mstep_cons_fresh _ _ _ _ hfresh
      _ = (k0, v0) :: tl := congrArg _ (ih hctl)

theorem mDictOf_append (l1 l2 : List PyTorchModelMetadata) :
    mDictOf (l1 ++ l2) = l2.foldl mstep (mDictOf l1) := by
  rw [mDictOf, mDictOf, List.foldl_append]

theorem mDictOf_factB (l1 l2 : List PyTorchModelMetadata) :
    mDictOf ((mDictOf l1).map Prod.snd ++ l2) = mDictOf (l1 ++ l2) := by
  rw [mDictOf_append, mDictOf_append, mDictOf_rebuild (mcanon_mDictOf l1)]

theorem lastValueFor_map_snd : ∀ {d : List (String × PyTorchModelMetadata)},
    mcanon d → ∀ k, lastValueFor (d.map Prod.snd) k = dlookup d k := by
  intro d
  induction d with
  | nil => intro _ k; rfl
  | cons p tl ih =>
    intro hc k
    obtain ⟨k0, v0⟩ := p
    have hk0 : k0 = v0.pyStr := hc.2 (k0, v0) (List.mem_cons_self _ _)
    have hnod := hc.1
    rw [dkeys, List.map_cons] at hnod
    obtain ⟨hk0tl, htlnod⟩ := List.nodup_cons.mp hnod
    have hctl : mcanon tl :=
      ⟨htlnod, fun q hq => hc.2 q (List.mem_cons_of_mem _ hq)⟩
    rw [List.map_cons, lastValueFor, ih hctl k]
    by_cases hk : k0 = k
    · subst hk
      have hnone : dlookup tl k0 = none := by
        rw [dlookup_eq_none]
        exact hk0tl
      rw [hnone]
      simp [dlookup, ← hk0]
    · have hval : dlookup ((k0, v0) :: tl) k = dlookup tl k := by
        simp [dlookup, hk]
      rw [hval]
      cases hlt : dlookup tl k with
      | some v => rfl
      | none =>
        have : ¬ v0.pyStr = k := by rw [← hk0]; exact hk
        simp [this]

theorem mDictOf_factC (l1 l2 : List PyTorchModelMetadata) :
    mDictOf (l1 ++ (mDictOf l2).map Prod.snd) = mDictOf (l1 ++ l2) := by
  rw [mDictOf_append, mDictOf_append]
  have hcL : mcanon (((mDictOf l2).map Prod.snd).foldl mstep (mDictOf l1)) :=
    mcanon_foldl _ _ (mcanon_mDictOf l1)
  refine dict_ext hcL.1 ?_ ?_
  · rw [dkeys_foldl_mstep, dkeys_foldl_mstep]
    have hmap : ((mDictOf l2).map Prod.snd).map PyTorchModelMetadata.pyStr =
        dkeys (mDictOf l2) := by
      rw [List.map_map, dkeys]
      refine List.map_congr_left ?_
      intro p hp
      exact ((mcanon_mDictOf l2).2 p hp).symm
    rw [hmap, dkeys_mDictOf l2]
    exact congrArg _ (newKeys_newKeys _ _ [] (fun x hx => absurd hx (List.not_mem_nil x)))
  · intro k
    rw [dlookup_foldl_mstep, dlookup_foldl_mstep]
    rw [lastValueFor_map_snd (mcanon_mDictOf l2) k, dlookup_mDictOf]

theorem merge_model_lists_assoc (a b c : Option (List PyTorchModelMetadata)) :
    merge_model_lists (merge_model_lists a b) c =
      merge_model_lists a (merge_model_lists b c) := by
  rw [merge_model_lists_eq (merge_model_lists a b) c,
    merge_model_lists_eq a (merge_model_lists b c),
    merge_model_lists_getD, merge_model_lists_getD]
  have hB := mDictOf_factB (a.getD [] ++ b.getD []) (c.getD [])
  have hC := mDictOf_factC (a.getD []) (b.getD [] ++ c.getD [])
  have he1 : ((mDictOf (a.getD [] ++ b.getD [])).map Prod.snd ++ c.getD []) = [] ↔
      ((a.getD [] ++ b.getD []) ++ c.getD []) = [] := by
    simp [List.append_eq_nil, List.map_eq_nil_iff, mDictOf_eq_nil_iff, and_assoc]
  have he2 : (a.getD [] ++ (mDictOf (b.getD [] ++ c.getD [])).map Prod.snd) = [] ↔
      (a.getD [] ++ (b.getD [] ++ c.getD [])) = [] := by
    simp [List.append_eq_nil, List.map_eq_nil_iff, mDictOf_eq_nil_iff, and_assoc]
  simp only [hB, hC, he1, he2, List.append_assoc]

/-! ## Registry merge machinery -/

theorem dlookup_append {α : Type} : ∀ (d1 d2 : List (String × α)) (k : String),
    dlookup (d1 ++ d2) k =
      match dlookup d1 k with
      | some v => some v
      | none => dlookup d2 k := by
  intro d1
  induction d1 with
  | nil => intro d2 k; rfl
  | cons p tl ih =>
    intro d2 k
    obtain ⟨k0, v0⟩ := p
    by_cases h : k0 = k
    · simp [dlookup, h]
    · simp only [List.cons_append, dlookup, if_neg h]
      exact ih d2 k

theorem combine_operators_ok {a b : SelectiveBuildOperator} (h : a.name = b.name) :
    combine_operators a b = .ok (combineOk a b) := by
  rw [combine_operators, if_neg (by simpa using h)]
  rfl

theorem combineOk_assoc (a b c : SelectiveBuildOperator) :
    combineOk (combineOk a b) c = combineOk a (combineOk b c) := by
  rw [combineOk, combineOk, combineOk, combineOk]
  simp only [Bool.or_assoc, merge_model_lists_assoc]

theorem optCombine_assoc (a b c : Option SelectiveBuildOperator) :
    optCombine (optCombine a b) c = optCombine a (optCombine b c) := by
  cases a <;> cases b <;> cases c <;> simp [optCombine, combineOk_assoc]

theorem consistent_dlookup {R : List (String × SelectiveBuildOperator)}
    (hc : consistentReg R) {k : String} {v : SelectiveBuildOperator}
    (h : dlookup R k = some v) : v.name = k :=
  hc (k, v) (dlookup_mem h)

theorem consistent_insert {d : List (String × SelectiveBuildOperator)}
    (hc : consistentReg d) {k : String} {v : SelectiveBuildOperator}
    (hv : v.name = k) : consistentReg (pyDictInsert d k v) := by
  intro p hp
  rcases mem_pyDictInsert hp with h | h
  · exact hc p h
  · rw [h]
    exact hv

theorem regFold_ok : ∀ (items acc : List (String × SelectiveBuildOperator)),
    (dkeys acc).Nodup → consistentReg acc →
    (dkeys items).Nodup → consistentReg items →
    ∃ D, items.foldlM regStep acc = .ok D ∧ (dkeys D).Nodup ∧ consistentReg D ∧
      ∀ k, dlookup D k = optCombine (dlookup acc k) (dlookup items k) := by
  intro items
  induction items with
  | nil =>
    intro acc hn hc _ _
    refine ⟨acc, rfl, hn, hc, ?_⟩
    intro k
    cases h : dlookup acc k <;> simp [dlookup, optCombine]
  | cons p tl ih =>
    intro acc hn hc hni hci
    obtain ⟨k0, op⟩ := p
    have hop : op.name = k0 := hci (k0, op) (List.mem_cons_self _ _)
    rw [dkeys, List.map_cons] at hni
    obtain ⟨hk0tl, htlnod⟩ := List.nodup_cons.mp hni
    have hctl : consistentReg tl := fun q hq => hci q (List.mem_cons_of_mem _ hq)
    have htlk0 : dlookup tl k0 = none := by
      rw [dlookup_eq_none]
      exact hk0tl
    cases hacc : dlookup acc k0 with
    | some ex =>
      have hex : ex.name = k0 := consistent_dlookup hc hacc
      have hstep : regStep acc (k0, op) = .ok (pyDictInsert acc k0 (combineOk ex op)) := by
        rw [regStep]
        simp only [hacc]
        rw [combine_operators_ok (by rw [hex, hop])]
        rfl
      have hn' : (dkeys (pyDictInsert acc k0 (combineOk ex op))).Nodup :=
        nodup_dkeys_pyDictInsert hn _ _
      have hc' : consistentReg (pyDictInsert acc k0 (combineOk ex op)) :=
        consistent_insert hc (by rw [combineOk]; exact hex)
      obtain ⟨D, hD, hDn, hDc, hDl⟩ := ih _ hn' hc' htlnod hctl
      refine ⟨D, ?_, hDn, hDc, ?_⟩
      · rw [List.foldlM_cons, hstep]
        simpa using hD
      · intro k
        rw [hDl k, dlookup_pyDictInsert]
        by_cases hk : k0 = k
        · subst hk
          rw [if_pos rfl, htlk0, hacc]
          show optCombine (some (combineOk ex op)) none = _
          have hh : dlookup ((k0, op) :: tl) k0 = some op := by simp [dlookup]
          rw [hh]
          rfl
        · rw [if_neg hk]
          have hh : dlookup ((k0, op) :: tl) k = dlookup tl k := by
            simp [dlookup, hk]
          rw [hh]
    | none =>
      have hfresh : k0 ∉ dkeys acc := (dlookup_eq_none acc k0).mp hacc
      have hstep : regStep acc (k0, op) = .ok (pyDictInsert acc k0 op) := by
        rw [regStep]
        simp only [hacc]
      have hn' : (dkeys (pyDictInsert acc k0 op)).Nodup :=
        nodup_dkeys_pyDictInsert hn _ _
      have hc' : consistentReg (pyDictInsert acc k0 op) :=
        consistent_insert hc hop
      obtain ⟨D, hD, hDn, hDc, hDl⟩ := ih _ hn' hc' htlnod hctl
      refine ⟨D, ?_, hDn, hDc, ?_⟩
      · rw [List.foldlM_cons, hstep]
        simpa using hD
      · intro k
        rw [hDl k, dlookup_pyDictInsert]
        by_cases hk : k0 = k
        · subst hk
          rw [if_pos rfl, htlk0, hacc]
          have hh : dlookup ((k0, op) :: tl) k0 = some op := by simp [dlookup]
          rw [hh]
          rfl
        · rw [if_neg hk]
          have hh : dlookup ((k0, op) :: tl) k = dlookup tl k := by
            simp [dlookup, hk]
          rw [hh]

theorem regFold_fresh : ∀ (items acc : List (String × SelectiveBuildOperator)),
    (dkeys items).Nodup → (∀ k, k ∈ dkeys items → dlookup acc k = none) →
    items.foldlM regStep acc = .ok (acc ++ items) := by
  intro items
  induction items with
  | nil =>
    intro acc _ _
    rw [List.append_nil]
    rfl
  | cons p tl ih =>
    intro acc hni hfresh
    obtain ⟨k0, op⟩ := p
    rw [dkeys, List.map_cons] at hni
    obtain ⟨hk0tl, htlnod⟩ := List.nodup_cons.mp hni
    have hacc : dlookup acc k0 = none :=
      hfresh k0 (List.mem_cons_self k0 (dkeys tl))
    have hstep : regStep acc (k0, op) = .ok (pyDictInsert acc k0 op) := by
      rw [regStep]
      simp only [hacc]
    have hins : pyDictInsert acc k0 op = acc ++ [(k0, op)] :=
      pyDictInsert_fresh ((dlookup_eq_none acc k0).mp hacc) op
    rw [List.foldlM_cons, hstep]
    have htl : tl.foldlM regStep (acc ++ [(k0, op)]) = .ok ((acc ++ [(k0, op)]) ++ tl) := by
      refine ih _ htlnod ?_
      intro k hk
      rw [dlookup_append]
      have h1 : dlookup acc k = none := hfresh k (List.mem_cons_of_mem k0 hk)
      have h2 : dlookup [(k0, op)] k = none := by
        have : ¬ k0 = k := fun hc => hk0tl (hc ▸ hk)
        simp [dlookup, this]
      rw [h1, h2]
    rw [hins]
    simpa [List.append_assoc] using htl

theorem merge_operator_dicts_char (lhs rhs : List (String × SelectiveBuildOperator))
    (hnl : (dkeys lhs).Nodup) (hcl : consistentReg lhs)
    (hnr : (dkeys rhs).Nodup) (hcr : consistentReg rhs) :
    ∃ D, merge_operator_dicts lhs rhs = .ok D ∧ (dkeys D).Nodup ∧ consistentReg D ∧
      ∀ k, dlookup D k = optCombine (dlookup lhs k) (dlookup rhs k) := by
  obtain ⟨D, hD, hDn, hDc, hDl⟩ := regFold_ok rhs lhs hnl hcl hnr hcr
  refine ⟨D, ?_, hDn, hDc, hDl⟩
  rw [merge_operator_dicts, List.foldlM_append]
  rw [regFold_fresh lhs [] hnl (by intro k _; rfl)]
  simpa using hD

theorem map_pyStr_snd {d : List (String × PyTorchModelMetadata)} (hc : mcanon d) :
    (d.map Prod.snd).map PyTorchModelMetadata.pyStr = dkeys d := by
  rw [List.map_map, dkeys]
  refine List.map_congr_left ?_
  intro p hp
  exact (hc.2 p hp).symm

/-! ## Claim theorems -/

/-- Claim C1, counterexample: two unequal entries share the canonical
string `"a@b"`; `merge_model_lists` keeps the later entry (the dict
assignment overwrites the value), not the first-encountered one as the
claim states. -/
theorem c1_counterexample :
    merge_model_lists (some [⟨"a@b", none⟩]) (some [⟨"a", some "b"⟩]) =
      some [⟨"a", some "b"⟩] ∧
    (⟨"a@b", none⟩ : PyTorchModelMetadata).pyStr =
      (⟨"a", some "b"⟩ : PyTorchModelMetadata).pyStr ∧
    (⟨"a", some "b"⟩ : PyTorchModelMetadata) ≠ ⟨"a@b", none⟩ := by
  refine ⟨by decide, by decide, by decide⟩

/-- Claim C1 (amended): `merge_model_lists` returns the concatenation of
`lhs` then `rhs` deduplicated by canonical string, with each canonical
string at the position of its first occurrence, but carrying the LAST
entry encountered with that canonical string (the later duplicate
overwrites the earlier entry); the result is absent when the
concatenation is empty. -/
theorem c1_merge_model_lists_spec (lhs rhs : Option (List PyTorchModelMetadata)) :
    merge_model_lists lhs rhs =
      if (lhs.getD [] ++ rhs.getD []) = [] then none
      else some (specMergeList (lhs.getD [] ++ rhs.getD [])) := by
  rw [merge_model_lists_eq, map_snd_mDictOf]

/-- Claim C3: on equal names, `combine_operators` returns the shared name,
the logical OR of the three boolean fields, and the merged model lists. -/
theorem c3_combine_operators_fields (lhs rhs : SelectiveBuildOperator)
    (h : lhs.name = rhs.name) :
    combine_operators lhs rhs = .ok
      ⟨lhs.name,
        lhs.is_root_operator || rhs.is_root_operator,
        lhs.is_used_for_training || rhs.is_used_for_training,
        lhs.include_all_overloads || rhs.include_all_overloads,
        merge_model_lists lhs.models rhs.models⟩ :=
  combine_operators_ok h

theorem c3_witness :
    combine_operators (⟨"x", false, false, true, none⟩ : SelectiveBuildOperator)
        ⟨"x", true, false, false, none⟩ =
      .ok ⟨"x", false || true, false || false, true || false,
        merge_model_lists none none⟩ :=
  c3_combine_operators_fields ⟨"x", false, false, true, none⟩
    ⟨"x", true, false, false, none⟩ rfl

/-- Claim C4: on differing names, `combine_operators` fails with an error
message naming both mismatched names, and returns no success value. -/
theorem c4_combine_operators_mismatch (lhs rhs : SelectiveBuildOperator)
    (h : lhs.name ≠ rhs.name) :
    (∃ pre mid post, combine_operators lhs rhs =
      .error (pre ++ lhs.name ++ mid ++ rhs.name ++ post)) ∧
    ∀ r, combine_operators lhs rhs ≠ .ok r := by
  have he : combine_operators lhs rhs =
      .error ("Expected both arguments to have the same name, but got '" ++
        lhs.name ++ "' and '" ++ rhs.name ++ "' instead") := by
    rw [combine_operators, if_pos h]
  refine ⟨⟨"Expected both arguments to have the same name, but got '",
    "' and '", "' instead", he⟩, ?_⟩
  intro r hr
  rw [he] at hr
  exact Except.noConfusion hr

theorem c4_witness :
    (∃ pre mid post,
      combine_operators (⟨"x", true, true, true, none⟩ : SelectiveBuildOperator)
          ⟨"y", true, true, true, none⟩ =
        .error (pre ++ "x" ++ mid ++ "y" ++ post)) ∧
    ∀ r, combine_operators (⟨"x", true, true, true, none⟩ : SelectiveBuildOperator)
        ⟨"y", true, true, true, none⟩ ≠ .ok r :=
  c4_combine_operators_mismatch ⟨"x", true, true, true, none⟩
    ⟨"y", true, true, true, none⟩ (by decide)

/-- Claim C5: for key-name-consistent registries with distinct keys,
`merge_operator_dicts` is associative in content — all four merges
succeed and the two nestings agree on every key lookup and have the same
key set. -/
theorem c5_merge_operator_dicts_assoc
    (A B C : List (String × SelectiveBuildOperator))
    (hnA : (dkeys A).Nodup) (hcA : consistentReg A)
    (hnB : (dkeys B).Nodup) (hcB : consistentReg B)
    (hnC : (dkeys C).Nodup) (hcC : consistentReg C) :
    ∃ AB BC L R,
      merge_operator_dicts A B = .ok AB ∧
      merge_operator_dicts B C = .ok BC ∧
      merge_operator_dicts AB C = .ok L ∧
      merge_operator_dicts A BC = .ok R ∧
      (∀ k, dlookup L k = dlookup R k) ∧
      (∀ k, k ∈ dkeys L ↔ k ∈ dkeys R) := by
  obtain ⟨AB, hAB, hABn, hABc, hABl⟩ := merge_operator_dicts_char A B hnA hcA hnB hcB
  obtain ⟨BC, hBC, hBCn, hBCc, hBCl⟩ := merge_operator_dicts_char B C hnB hcB hnC hcC
  obtain ⟨L, hL, hLn, hLc, hLl⟩ := merge_operator_dicts_char AB C hABn hABc hnC hcC
  obtain ⟨R, hR, hRn, hRc, hRl⟩ := merge_operator_dicts_char A BC hnA hcA hBCn hBCc
  have hlk : ∀ k, dlookup L k = dlookup R k := by
    intro k
    rw [hLl k, hRl k, hABl k, hBCl k, optCombine_assoc]
  refine ⟨AB, BC, L, R, hAB, hBC, hL, hR, hlk, ?_⟩
  intro k
  rw [← not_iff_not, ← dlookup_eq_none, ← dlookup_eq_none, hlk k]

theorem c5_witness :
    ∃ AB BC L R,
      merge_operator_dicts [("x", ⟨"x", false, false, false, none⟩)]
        [("x", ⟨"x", true, false, false, none⟩)] = .ok AB ∧
      merge_operator_dicts [("x", ⟨"x", true, false, false, none⟩)]
        [("y", ⟨"y", false, true, false, none⟩)] = .ok BC ∧
      merge_operator_dicts AB [("y", ⟨"y", false, true, false, none⟩)] = .ok L ∧
      merge_operator_dicts [("x", ⟨"x", false, false, false, none⟩)] BC = .ok R ∧
      (∀ k, dlookup L k = dlookup R k) ∧
      (∀ k, k ∈ dkeys L ↔ k ∈ dkeys R) :=
  c5_merge_operator_dicts_assoc
    [("x", ⟨"x", false, false, false, none⟩)]
    [("x", ⟨"x", true, false, false, none⟩)]
    [("y", ⟨"y", false, true, false, none⟩)]
    (by decide) (by decide) (by decide) (by decide) (by decide) (by decide)

/-- Claim C6: merging any registry with distinct keys against the empty
registry returns it unchanged. -/
theorem c6_merge_with_empty (R : List (String × SelectiveBuildOperator))
    (h : (dkeys R).Nodup) : merge_operator_dicts R [] = .ok R := by
  rw [merge_operator_dicts, List.append_nil]
  have hfold := regFold_fresh R [] h (fun k _ => rfl)
  simpa using hfold

theorem c6_witness :
    merge_operator_dicts [("x", ⟨"x", true, false, true, some [⟨"m", none⟩]⟩)] [] =
      .ok [("x", ⟨"x", true, false, true, some [⟨"m", none⟩]⟩)] :=
  c6_merge_with_empty [("x", ⟨"x", true, false, true, some [⟨"m", none⟩]⟩)] (by decide)

/-- Claim C7: `merge_model_lists` treats an absent input as an empty list,
merges two absent inputs to absent, and returns absent exactly when the
deduplicated union is empty. -/
theorem c7_absent_as_empty :
    merge_model_lists none none = none ∧
    (∀ lhs rhs : Option (List PyTorchModelMetadata),
      merge_model_lists lhs rhs =
        merge_model_lists (some (lhs.getD [])) (some (rhs.getD []))) ∧
    (∀ lhs rhs : Option (List PyTorchModelMetadata),
      merge_model_lists lhs rhs = none ↔
        specMergeList (lhs.getD [] ++ rhs.getD []) = []) := by
  refine ⟨rfl, ?_, ?_⟩
  · intro lhs rhs
    rw [merge_model_lists_eq, merge_model_lists_eq]
    rfl
  · intro lhs rhs
    rw [merge_model_lists_eq, ← map_snd_mDictOf]
    by_cases h : lhs.getD [] ++ rhs.getD [] = []
    · rw [if_pos h]
      constructor
      · intro _
        rw [h]
        rfl
      · intro _
        rfl
    · rw [if_neg h]
      constructor
      · intro hc
        exact Option.noConfusion hc
      · intro hmap
        exact absurd ((mDictOf_eq_nil_iff _).mp (List.map_eq_nil_iff.mp hmap)) h

/-- Claim C9: whenever `merge_model_lists` returns a list, that list is
non-empty and its entries have pairwise distinct canonical strings (so
duplicates inside a single input are removed too). -/
theorem c9_dedup_invariant (lhs rhs : Option (List PyTorchModelMetadata))
    (l : List PyTorchModelMetadata) (h : merge_model_lists lhs rhs = some l) :
    l ≠ [] ∧ (l.map PyTorchModelMetadata.pyStr).Nodup := by
  rw [merge_model_lists_eq] at h
  by_cases he : lhs.getD [] ++ rhs.getD [] = []
  · rw [if_pos he] at h
    exact absurd h (by simp)
  · rw [if_neg he] at h
    have hl : (mDictOf (lhs.getD [] ++ rhs.getD [])).map Prod.snd = l := by
      injection h
    subst hl
    have hcanon := mcanon_mDictOf (lhs.getD [] ++ rhs.getD [])
    constructor
    · intro hc
      exact he ((mDictOf_eq_nil_iff _).mp (List.map_eq_nil_iff.mp hc))
    · rw [map_pyStr_snd hcanon]
      exact hcanon.1

theorem c9_witness :
    ([⟨"a", none⟩] : List PyTorchModelMetadata) ≠ [] ∧
    (([⟨"a", none⟩] : List PyTorchModelMetadata).map PyTorchModelMetadata.pyStr).Nodup :=
  c9_dedup_invariant (some [⟨"a", none⟩, ⟨"a", none⟩]) none [⟨"a", none⟩] (by decide)

/-- Claim C10: merging key-name-consistent registries cannot hit the
name-mismatch error, and the result is again key-name consistent. -/
theorem c10_consistency_preserved (lhs rhs : List (String × SelectiveBuildOperator))
    (hnl : (dkeys lhs).Nodup) (hcl : consistentReg lhs)
    (hnr : (dkeys rhs).Nodup) (hcr : consistentReg rhs) :
    ∃ D, merge_operator_dicts lhs rhs = .ok D ∧ consistentReg D := by
  obtain ⟨D, hD, _, hDc, _⟩ := merge_operator_dicts_char lhs rhs hnl hcl hnr hcr
  exact ⟨D, hD, hDc⟩

theorem c10_witness :
    ∃ D, merge_operator_dicts [("x", ⟨"x", false, true, false, none⟩)]
      [("x", ⟨"x", true, false, false, none⟩), ("y", ⟨"y", true, true, true, none⟩)] =
        .ok D ∧ consistentReg D :=
  c10_consistency_preserved [("x", ⟨"x", false, true, false, none⟩)]
    [("x", ⟨"x", true, false, false, none⟩), ("y", ⟨"y", true, true, true, none⟩)]
    (by decide) (by decide) (by decide) (by decide)

/-! ## Deserialization: evaluation lemmas and claim C8 -/

/-- Whether a YAML value is a string (`isinstance(v, str)`). -/
def isStr (y : Yaml) : Bool :=
  match y with
  | .str _ => true
  | _ => false

theorem from_yaml_name_missing {d : List (String × Yaml)}
    (h : dlookup d "name" = none) :
    PyTorchModelMetadata.from_yaml d = .error "KeyError: name" := by
  simp only [PyTorchModelMetadata.from_yaml]
  rw [h]

theorem from_yaml_ok_noversion {d : List (String × Yaml)} {n : String}
    (hn : dlookup d "name" = some (Yaml.str n))
    (hv : dlookup d "version" = none) :
    PyTorchModelMetadata.from_yaml d = .ok ⟨n, none⟩ := by
  simp only [PyTorchModelMetadata.from_yaml]
  rw [hn, hv]

theorem from_yaml_ok_version {d : List (String × Yaml)} {n s : String}
    (hn : dlookup d "name" = some (Yaml.str n))
    (hv : dlookup d "version" = some (Yaml.str s)) :
    PyTorchModelMetadata.from_yaml d = .ok ⟨n, some s⟩ := by
  simp only [PyTorchModelMetadata.from_yaml]
  rw [hn, hv]

theorem from_yaml_name_notstr {d : List (String × Yaml)} {v : Yaml}
    (hn : dlookup d "name" = some v) (hs : isStr v = false) :
    PyTorchModelMetadata.from_yaml d = .error "AssertionError: name is not a str" := by
  simp only [PyTorchModelMetadata.from_yaml]
  rw [hn]
  cases v with
  | str s => simp [isStr] at hs
  | bool b => rfl
  | list l => rfl
  | dict dd => rfl

theorem from_yaml_version_notstr {d : List (String × Yaml)} {n : String} {v : Yaml}
    (hn : dlookup d "name" = some (Yaml.str n))
    (hv : dlookup d "version" = some v) (hs : isStr v = false) :
    PyTorchModelMetadata.from_yaml d = .error "AssertionError: version is not a str" := by
  simp only [PyTorchModelMetadata.from_yaml]
  rw [hn, hv]
  cases v with
  | str s => simp [isStr] at hs
  | bool b => rfl
  | list l => rfl
  | dict dd => rfl

/-- Claim C8: `PyTorchModelMetadata.from_yaml` fails exactly when `name`
is missing or non-string, or `version` is present and non-string; on
success, the record's `version` is absent iff the `version` key is
missing. -/
theorem c8_from_yaml_errors (d : List (String × Yaml)) :
    ((∃ e, PyTorchModelMetadata.from_yaml d = .error e) ↔
      (dlookup d "name" = none ∨
        (∃ v, dlookup d "name" = some v ∧ isStr v = false) ∨
        (∃ v, dlookup d "version" = some v ∧ isStr v = false))) ∧
    (∀ cm, PyTorchModelMetadata.from_yaml d = .ok cm →
      (cm.version = none ↔ dlookup d "version" = none)) := by
  constructor
  · constructor
    · rintro ⟨e, he⟩
      cases hn : dlookup d "name" with
      | none => exact Or.inl rfl
      | some v =>
        cases v with
        | str nm =>
          cases hv : dlookup d "version" with
          | none =>
            rw [from_yaml_ok_noversion hn hv] at he
            exact Except.noConfusion he
          | some w =>
            cases w with
            | str s =>
              rw [from_yaml_ok_version hn hv] at he
              exact Except.noConfusion he
            | bool b => exact Or.inr (Or.inr ⟨Yaml.bool b, rfl, rfl⟩)
            | list l => exact Or.inr (Or.inr ⟨Yaml.list l, rfl, rfl⟩)
            | dict dd => exact Or.inr (Or.inr ⟨Yaml.dict dd, rfl, rfl⟩)
        | bool b => exact Or.inr (Or.inl ⟨Yaml.bool b, rfl, rfl⟩)
        | list l => exact Or.inr (Or.inl ⟨Yaml.list l, rfl, rfl⟩)
        | dict dd => exact Or.inr (Or.inl ⟨Yaml.dict dd, rfl, rfl⟩)
    · intro habs
      rcases habs with hn | ⟨v, hv, hs⟩ | ⟨v, hv, hs⟩
      · exact ⟨"KeyError: name", from_yaml_name_missing hn⟩
      · exact ⟨"AssertionError: name is not a str", from_yaml_name_notstr hv hs⟩
      · cases hn : dlookup d "name" with
        | none => exact ⟨"KeyError: name", from_yaml_name_missing hn⟩
        | some nv =>
          cases hns : isStr nv with
          | false => exact ⟨"AssertionError: name is not a str", from_yaml_name_notstr hn hns⟩
          | true =>
            cases nv with
            | str nm =>
              exact ⟨"AssertionError: version is not a str",
                from_yaml_version_notstr hn hv hs⟩
            | bool b => simp [isStr] at hns
            | list l => simp [isStr] at hns
            | dict dd => simp [isStr] at hns
  · intro cm hcm
    cases hn : dlookup d "name" with
    | none =>
      rw [from_yaml_name_missing hn] at hcm
      exact Except.noConfusion hcm
    | some v =>
      cases hns : isStr v with
      | false =>
        rw [from_yaml_name_notstr hn hns] at hcm
        exact Except.noConfusion hcm
      | true =>
        cases v with
        | str nm =>
          cases hv : dlookup d "version" with
          | none =>
            rw [from_yaml_ok_noversion hn hv] at hcm
            have hcm2 : (⟨nm, none⟩ : PyTorchModelMetadata) = cm := by
              injection hcm
            rw [← hcm2]
            simp
          | some w =>
            cases w with
            | str s =>
              rw [from_yaml_ok_version hn hv] at hcm
              have hcm2 : (⟨nm, some s⟩ : PyTorchModelMetadata) = cm := by
                injection hcm
              rw [← hcm2]
              simp
            | bool b =>
              rw [from_yaml_version_notstr hn hv rfl] at hcm
              exact Except.noConfusion hcm
            | list l =>
              rw [from_yaml_version_notstr hn hv rfl] at hcm
              exact Except.noConfusion hcm
            | dict dd =>
              rw [from_yaml_version_notstr hn hv rfl] at hcm
              exact Except.noConfusion hcm
        | bool b => simp [isStr] at hns
        | list l => simp [isStr] at hns
        | dict dd => simp [isStr] at hns

theorem c8_witness :
    (⟨"m", none⟩ : PyTorchModelMetadata).version = none ↔
      dlookup [("name", Yaml.str "m")] "version" = none :=
  (c8_from_yaml_errors [("name", Yaml.str "m")]).2 ⟨"m", none⟩ rfl

/-! ## Round-trip: claim C2 -/

/-- A document of the ConsumerMetadata shape: keys drawn from
`name`/`version`, `name` present with a string value, `version` a string
when present. -/
def isValidCMDoc (d : List (String × Yaml)) : Prop :=
  (∀ k ∈ dkeys d, k = "name" ∨ k = "version") ∧
  (∃ n, dlookup d "name" = some (Yaml.str n)) ∧
  (∀ v, dlookup d "version" = some v → ∃ s, v = Yaml.str s)

theorem cm_round_trip {d : List (String × Yaml)} (h : isValidCMDoc d) :
    ∃ cm, PyTorchModelMetadata.from_yaml d = .ok cm ∧
      ∀ k, dlookup (PyTorchModelMetadata.to_dict cm) k = dlookup d k := by
  obtain ⟨hkeys, ⟨n, hn⟩, hver⟩ := h
  cases hv : dlookup d "version" with
  | none =>
    refine ⟨⟨n, none⟩, from_yaml_ok_noversion hn hv, ?_⟩
    intro k
    show dlookup [("name", Yaml.str n)] k = dlookup d k
    by_cases hk1 : k = "name"
    · subst hk1
      rw [hn]
      simp [dlookup]
    · have hL : dlookup [("name", Yaml.str n)] k = none := by
        simp [dlookup]
        exact fun hc => hk1 hc.symm
      rw [hL]
      by_cases hk2 : k = "version"
      · subst hk2
        exact hv.symm
      · symm
        rw [dlookup_eq_none]
        intro hmem
        rcases hkeys k hmem with h1 | h1
        · exact hk1 h1
        · exact hk2 h1
  | some w =>
    obtain ⟨s, hs⟩ := hver w hv
    subst hs
    refine ⟨⟨n, some s⟩, from_yaml_ok_version hn hv, ?_⟩
    intro k
    show dlookup [("name", Yaml.str n), ("version", Yaml.str s)] k = dlookup d k
    by_cases hk1 : k = "name"
    · subst hk1
      rw [hn]
      simp [dlookup]
    · by_cases hk2 : k = "version"
      · subst hk2
        rw [hv]
        simp [dlookup]
      · have hL : dlookup [("name", Yaml.str n), ("version", Yaml.str s)] k = none := by
          simp only [dlookup]
          rw [if_neg (fun hc => hk1 hc.symm), if_neg (fun hc => hk2 hc.symm)]
        rw [hL]
        symm
        rw [dlookup_eq_none]
        intro hmem
        rcases hkeys k hmem with h1 | h1
        · exact hk1 h1
        · exact hk2 h1

/-- The three boolean flag keys of an operator document. -/
def isFlagKey (k : String) : Bool :=
  k == "is_root_operator" || k == "is_used_for_training" || k == "include_all_overloads"

/-- A document of the OperatorRecord shape: keys drawn from the three
flags plus `models`; flags boolean when present; `models`, when present,
a list of ConsumerMetadata-shaped documents. -/
def isValidOpDoc (d : List (String × Yaml)) : Prop :=
  (∀ k ∈ dkeys d, isFlagKey k = true ∨ k = "models") ∧
  (∀ k, isFlagKey k = true → ∀ v, dlookup d k = some v → ∃ b, v = Yaml.bool b) ∧
  (∀ v, dlookup d "models" = some v → ∃ ms, v = Yaml.list ms ∧
    ∀ y ∈ ms, ∃ md, y = Yaml.dict md ∧ isValidCMDoc md)

/-- How the `models` field of a serialized operator document corresponds
to the input document: both absent, or both lists of the same length
whose entries agree field-for-field. -/
def modelsRel (a d : List (String × Yaml)) : Prop :=
  (dlookup d "models" = none ∧ dlookup a "models" = none) ∨
  (∃ ms ms2, dlookup d "models" = some (Yaml.list ms) ∧
    dlookup a "models" = some (Yaml.list ms2) ∧
    List.Forall₂ (fun yOut yIn => ∃ ad dd, yOut = Yaml.dict ad ∧ yIn = Yaml.dict dd ∧
      ∀ k, dlookup ad k = dlookup dd k) ms2 ms)

theorem getBoolOrDefault_ok {d : List (String × Yaml)} {key : String}
    (h : ∀ v, dlookup d key = some v → ∃ b, v = Yaml.bool b) :
    ∃ b, getBoolOrDefault d key = .ok b ∧
      (dlookup d key).getD (Yaml.bool true) = Yaml.bool b := by
  cases hv : dlookup d key with
  | none =>
    refine ⟨true, ?_, ?_⟩
    · simp only [getBoolOrDefault]
      rw [hv]
    · rfl
  | some v =>
    obtain ⟨b, hb⟩ := h v hv
    subst hb
    refine ⟨b, ?_, ?_⟩
    · simp only [getBoolOrDefault]
      rw [hv]
    · rfl

theorem getModels_none {d : List (String × Yaml)}
    (hm : dlookup d "models" = none) : getModels d = .ok none := by
  simp only [getModels]
  rw [hm]

theorem getModels_list {d : List (String × Yaml)} {ms : List Yaml}
    {cms : List PyTorchModelMetadata}
    (hm : dlookup d "models" = some (Yaml.list ms))
    (hcms : ms.mapM fromYamlValue = .ok cms) :
    getModels d = .ok (some cms) := by
  simp only [getModels]
  rw [hm]
  show (ms.mapM fromYamlValue).map some = Except.ok (some cms)
  rw [hcms]
  rfl

theorem mapM_fromYamlValue_ok : ∀ (ms : List Yaml),
    (∀ y ∈ ms, ∃ md, y = Yaml.dict md ∧ isValidCMDoc md) →
    ∃ cms, ms.mapM fromYamlValue = .ok cms ∧
      List.Forall₂ (fun cm y => ∃ dd, y = Yaml.dict dd ∧
        ∀ k, dlookup (PyTorchModelMetadata.to_dict cm) k = dlookup dd k) cms ms := by
  intro ms
  induction ms with
  | nil => intro _; exact ⟨[], rfl, List.Forall₂.nil⟩
  | cons y tl ih =>
    intro hall
    obtain ⟨md, hy, hvalid⟩ := hall y (List.mem_cons_self _ _)
    obtain ⟨cm, hcm, hfields⟩ := cm_round_trip hvalid
    obtain ⟨cms, hcms, hrel⟩ := ih (fun z hz => hall z (List.mem_cons_of_mem _ hz))
    refine ⟨cm :: cms, ?_, List.Forall₂.cons ⟨md, hy, hfields⟩ hrel⟩
    rw [List.mapM_cons]
    subst hy
    rw [show fromYamlValue (Yaml.dict md) = PyTorchModelMetadata.from_yaml md from rfl,
      hcm, hcms]
    rfl

theorem op_round_trip (nm : String) {d : List (String × Yaml)} (h : isValidOpDoc d) :
    ∃ op, SelectiveBuildOperator.from_yaml_dict nm d = .ok op ∧
      (∀ k, isFlagKey k = true →
        dlookup (SelectiveBuildOperator.to_dict op) k =
          some ((dlookup d k).getD (Yaml.bool true))) ∧
      (∀ k, isFlagKey k = false → k ≠ "models" →
        dlookup (SelectiveBuildOperator.to_dict op) k = none ∧ dlookup d k = none) ∧
      modelsRel (SelectiveBuildOperator.to_dict op) d := by
  obtain ⟨hkeys, hflags, hmodels⟩ := h
  obtain ⟨b1, hb1, hv1⟩ := getBoolOrDefault_ok (hflags "is_root_operator" rfl)
  obtain ⟨b2, hb2, hv2⟩ := getBoolOrDefault_ok (hflags "is_used_for_training" rfl)
  obtain ⟨b3, hb3, hv3⟩ := getBoolOrDefault_ok (hflags "include_all_overloads" rfl)
  cases hm : dlookup d "models" with
  | none =>
    have hok : SelectiveBuildOperator.from_yaml_dict nm d = .ok ⟨nm, b1, b2, b3, none⟩ := by
      simp only [SelectiveBuildOperator.from_yaml_dict]
      rw [hb1, hb2, hb3, getModels_none hm]
      rfl
    refine ⟨⟨nm, b1, b2, b3, none⟩, hok, ?_, ?_, Or.inl ⟨hm, rfl⟩⟩
    · intro k hk
      have hk3 : k = "is_root_operator" ∨ k = "is_used_for_training" ∨
          k = "include_all_overloads" := by
        simp only [isFlagKey, Bool.or_eq_true, beq_iff_eq] at hk
        tauto
      rcases hk3 with hx | hx | hx <;> subst hx
      · rw [hv1]
        rfl
      · rw [hv2]
        rfl
      · rw [hv3]
        rfl
    · intro k hk hkm
      have hne : ¬ k = "is_root_operator" ∧ ¬ k = "is_used_for_training" ∧
          ¬ k = "include_all_overloads" := by
        constructor
        · intro hc; subst hc; exact Bool.noConfusion hk
        constructor
        · intro hc; subst hc; exact Bool.noConfusion hk
        · intro hc; subst hc; exact Bool.noConfusion hk
      obtain ⟨h1, h2, h3⟩ := hne
      constructor
      · show dlookup [("is_root_operator", Yaml.bool b1),
          ("is_used_for_training", Yaml.bool b2),
          ("include_all_overloads", Yaml.bool b3)] k = none
        simp only [dlookup]
        rw [if_neg (fun hc => h1 hc.symm), if_neg (fun hc => h2 hc.symm),
          if_neg (fun hc => h3 hc.symm)]
      · rw [dlookup_eq_none]
        intro hmem
        rcases hkeys k hmem with hf | hm2
        · exact Bool.noConfusion (hf.symm.trans hk)
        · exact hkm hm2
  | some v =>
    obtain ⟨ms, hv, hallcm⟩ := hmodels v hm
    subst hv
    obtain ⟨cms, hcms, hrel⟩ := mapM_fromYamlValue_ok ms hallcm
    have hok : SelectiveBuildOperator.from_yaml_dict nm d = .ok ⟨nm, b1, b2, b3, some cms⟩ := by
      simp only [SelectiveBuildOperator.from_yaml_dict]
      rw [hb1, hb2, hb3, getModels_list hm hcms]
      rfl
    refine ⟨⟨nm, b1, b2, b3, some cms⟩, hok, ?_, ?_, ?_⟩
    · intro k hk
      have hk3 : k = "is_root_operator" ∨ k = "is_used_for_training" ∨
          k = "include_all_overloads" := by
        simp only [isFlagKey, Bool.or_eq_true, beq_iff_eq] at hk
        tauto
      rcases hk3 with hx | hx | hx <;> subst hx
      · rw [hv1]
        rfl
      · rw [hv2]
        rfl
      · rw [hv3]
        rfl
    · intro k hk hkm
      have hne : ¬ k = "is_root_operator" ∧ ¬ k = "is_used_for_training" ∧
          ¬ k = "include_all_overloads" := by
        constructor
        · intro hc; subst hc; exact Bool.noConfusion hk
        constructor
        · intro hc; subst hc; exact Bool.noConfusion hk
        · intro hc; subst hc; exact Bool.noConfusion hk
      obtain ⟨h1, h2, h3⟩ := hne
      constructor
      · show dlookup [("is_root_operator", Yaml.bool b1),
          ("is_used_for_training", Yaml.bool b2),
          ("include_all_overloads", Yaml.bool b3),
          ("models", Yaml.list (cms.map (fun m => Yaml.dict m.to_dict)))] k = none
        simp only [dlookup]
        rw [if_neg (fun hc => h1 hc.symm), if_neg (fun hc => h2 hc.symm),
          if_neg (fun hc => h3 hc.symm), if_neg (fun hc => hkm hc.symm)]
      · rw [dlookup_eq_none]
        intro hmem
        rcases hkeys k hmem with hf | hm2
        · exact Bool.noConfusion (hf.symm.trans hk)
        · exact hkm hm2
    · refine Or.inr ⟨ms, cms.map (fun m => Yaml.dict (PyTorchModelMetadata.to_dict m)),
        hm, ?_, ?_⟩
      · rfl
      refine List.forall₂_map_left_iff.mpr (hrel.imp ?_)
      intro cm y hy
      obtain ⟨dd, hyd, hf⟩ := hy
      exact ⟨cm.to_dict, dd, rfl, hyd, hf⟩

/-- Claim C2, counterexample: the empty document is a valid OperatorRecord
document (every key absent), but serializing its deserialization emits
`is_root_operator` (defaulted to `true`) — a field the input does not
have — so the round-trip is not field-for-field equal. -/
theorem c2_counterexample :
    SelectiveBuildOperator.from_yaml_dict "x" [] = .ok ⟨"x", true, true, true, none⟩ ∧
    dlookup (SelectiveBuildOperator.to_dict ⟨"x", true, true, true, none⟩)
      "is_root_operator" = some (Yaml.bool true) ∧
    dlookup ([] : List (String × Yaml)) "is_root_operator" = none :=
  ⟨rfl, rfl, rfl⟩

/-- Claim C2 (amended): deserializing then serializing a valid document is
field-for-field exact for the ConsumerMetadata shape; for the
OperatorRecord shape the output agrees with the input on every key except
that the three boolean flags always appear (with value `true` when absent
from the input), `models` is omitted exactly when absent from the input,
and present model entries correspond field-for-field. -/
theorem c2_round_trip :
    (∀ d : List (String × Yaml), isValidCMDoc d →
      ∃ cm, PyTorchModelMetadata.from_yaml d = .ok cm ∧
        ∀ k, dlookup (PyTorchModelMetadata.to_dict cm) k = dlookup d k) ∧
    (∀ (nm : String) (d : List (String × Yaml)), isValidOpDoc d →
      ∃ op, SelectiveBuildOperator.from_yaml_dict nm d = .ok op ∧
        (∀ k, isFlagKey k = true →
          dlookup (SelectiveBuildOperator.to_dict op) k =
            some ((dlookup d k).getD (Yaml.bool true))) ∧
        (∀ k, isFlagKey k = false → k ≠ "models" →
          dlookup (SelectiveBuildOperator.to_dict op) k = none ∧ dlookup d k = none) ∧
        modelsRel (SelectiveBuildOperator.to_dict op) d) :=
  ⟨fun _ h => cm_round_trip h, fun nm _ h => op_round_trip nm h⟩

theorem c2_witness :
    (∃ cm, PyTorchModelMetadata.from_yaml [("name", Yaml.str "m")] = .ok cm ∧
      ∀ k, dlookup (PyTorchModelMetadata.to_dict cm) k =
        dlookup [("name", Yaml.str "m")] k) ∧
    (∃ op, SelectiveBuildOperator.from_yaml_dict "x"
        [("is_root_operator", Yaml.bool false)] = .ok op ∧
      (∀ k, isFlagKey k = true →
        dlookup (SelectiveBuildOperator.to_dict op) k =
          some ((dlookup [("is_root_operator", Yaml.bool false)] k).getD (Yaml.bool true))) ∧
      (∀ k, isFlagKey k = false → k ≠ "models" →
        dlookup (SelectiveBuildOperator.to_dict op) k = none ∧
          dlookup [("is_root_operator", Yaml.bool false)] k = none) ∧
      modelsRel (SelectiveBuildOperator.to_dict op)
        [("is_root_operator", Yaml.bool false)]) := by
  constructor
  · refine c2_round_trip.1 [("name", Yaml.str "m")] ⟨?_, ⟨"m", rfl⟩, ?_⟩
    · intro k hk
      exact Or.inl (List.mem_singleton.mp hk)
    · intro v hv
      exact Option.noConfusion hv
  · refine c2_round_trip.2 "x" [("is_root_operator", Yaml.bool false)] ⟨?_, ?_, ?_⟩
    · intro k hk
      have hk1 : k = "is_root_operator" := List.mem_singleton.mp hk
      subst hk1
      exact Or.inl rfl
    · intro k _ v hv
      simp only [dlookup] at hv
      by_cases hc : ("is_root_operator" : String) = k
      · rw [if_pos hc] at hv
        injection hv with hv2
        exact ⟨false, hv2.symm⟩
      · rw [if_neg hc] at hv
        exact Option.noConfusion hv
    · intro v hv
      exact Option.noConfusion hv
